import Mathlib

/-!
Verification development for the OcImage2Downloader repository (main.go).

The Go program fetches a CSV table, harvests image references from the
HTML-bearing columns `body_uk` and `body_ru`, downloads each distinct
reference once, and rewrites the HTML to point at deterministic local
filenames.  This file gives a shallow embedding of the pure core of that
program: URL resolution, SHA-1 based filename synthesis with Cyrillic
transliteration, the regular-expression driven img-tag scanner used by
`extractImageLinks` and `replaceImageLinks`, and the record-processing
orchestrator `processRecords`.  Network and filesystem effects are
abstracted as a success oracle `ok : String -> Bool`; on success the Go
function `downloadAndSaveImage` returns a relative path computed purely
from the URL, which is modelled exactly.

Strings are modelled as lists of unicode scalar values (Go iterates runes
in the places that matter here); SHA-1 hashes the UTF-8 bytes of the URL,
which is modelled by an explicit UTF-8 encoder.
-/

/-- Single-quote character, built numerically to keep source lexing simple. -/
def squote : Char := Char.ofNat 39

/-- 32-bit truncation, as Go `uint32` arithmetic. -/
def w32 (n : Nat) : Nat := n % 4294967296

/-- 32-bit left rotation by `k` (for `n < 2^32`). -/
def rotl (k n : Nat) : Nat := w32 (n * 2 ^ k + n / 2 ^ (32 - k))

/-- Big-endian 8-byte encoding of a (bit-)length, as in SHA-1 padding. -/
def beBytes8 (n : Nat) : List Nat :=
  [n / 72057594037927936 % 256, n / 281474976710656 % 256,
   n / 1099511627776 % 256, n / 4294967296 % 256,
   n / 16777216 % 256, n / 65536 % 256, n / 256 % 256, n % 256]

/-- Big-endian 4-byte encoding of a 32-bit word. -/
def wordBytes (w : Nat) : List Nat :=
  [w / 16777216 % 256, w / 65536 % 256, w / 256 % 256, w % 256]

/-- SHA-1 message padding: append 0x80, zeros to 56 mod 64, then the
64-bit big-endian bit length. -/
def sha1Pad (msg : List Nat) : List Nat :=
  let len := msg.length
  let padZeros := (55 + 64 - len % 64) % 64
  msg ++ [128] ++ List.replicate padZeros 0 ++ beBytes8 (len * 8)

/-- Split a byte list into 64-byte blocks (fuel-driven so it reduces in the
kernel). -/
def toBlocksGo : Nat → List Nat → List (List Nat)
  | 0, _ => []
  | _, [] => []
  | fuel + 1, l => l.take 64 :: toBlocksGo fuel (l.drop 64)

/-- Split a byte list into 64-byte blocks. -/
def toBlocks (l : List Nat) : List (List Nat) := toBlocksGo l.length l

/-- Big-endian word from four bytes. -/
def beWord (a b c d : Nat) : Nat := ((a * 256 + b) * 256 + c) * 256 + d

/-- The sixteen 32-bit words of one 64-byte block. -/
def blockWords (blk : List Nat) : List Nat :=
  (List.range 16).map (fun i =>
    beWord (blk.getD (4 * i) 0) (blk.getD (4 * i + 1) 0)
      (blk.getD (4 * i + 2) 0) (blk.getD (4 * i + 3) 0))

/-- Extend the message schedule by `n` words:
`w[i] = rotl1 (w[i-3] xor w[i-8] xor w[i-14] xor w[i-16])`. -/
def sched : Nat → List Nat → List Nat
  | 0, ws => ws
  | n + 1, ws =>
    let L := ws.length
    sched n (ws ++ [rotl 1 ((ws.getD (L - 3) 0) ^^^ (ws.getD (L - 8) 0) ^^^
      (ws.getD (L - 14) 0) ^^^ (ws.getD (L - 16) 0))])

/-- One SHA-1 round: state `(a,b,c,d,e)`, round index `t`, schedule word. -/
def sha1Round (st : Nat × Nat × Nat × Nat × Nat) (t wt : Nat) :
    Nat × Nat × Nat × Nat × Nat :=
  let a := st.1
  let b := st.2.1
  let c := st.2.2.1
  let d := st.2.2.2.1
  let e := st.2.2.2.2
  let f :=
    if t < 20 then (b &&& c) ||| ((b ^^^ 4294967295) &&& d)
    else if t < 40 then b ^^^ c ^^^ d
    else if t < 60 then (b &&& c) ||| (b &&& d) ||| (c &&& d)
    else b ^^^ c ^^^ d
  let k :=
    if t < 20 then 1518500249
    else if t < 40 then 1859775393
    else if t < 60 then 2400959708
    else 3395469782
  (w32 (rotl 5 a + f + e + k + wt), a, rotl 30 b, c, d)

/-- Process one 64-byte block into the running hash state. -/
def sha1Block (h : Nat × Nat × Nat × Nat × Nat) (blk : List Nat) :
    Nat × Nat × Nat × Nat × Nat :=
  let ws := sched 64 (blockWords blk)
  let st := (List.range 80).foldl
    (fun s t => sha1Round s t (ws.getD t 0)) h
  (w32 (h.1 + st.1), w32 (h.2.1 + st.2.1), w32 (h.2.2.1 + st.2.2.1),
   w32 (h.2.2.2.1 + st.2.2.2.1), w32 (h.2.2.2.2 + st.2.2.2.2))

/-- Final SHA-1 state over a byte message. -/
def sha1H (msg : List Nat) : Nat × Nat × Nat × Nat × Nat :=
  (toBlocks (sha1Pad msg)).foldl sha1Block
    (1732584193, 4023233417, 2562383102, 271733878, 3285377520)

/-- The 20-byte SHA-1 digest of a byte message. -/
def sha1Bytes (msg : List Nat) : List Nat :=
  wordBytes (sha1H msg).1 ++ wordBytes (sha1H msg).2.1 ++
  wordBytes (sha1H msg).2.2.1 ++ wordBytes (sha1H msg).2.2.2.1 ++
  wordBytes (sha1H msg).2.2.2.2

/-- Lowercase hexadecimal digit for `n < 16`. -/
def hexDigitChar (n : Nat) : Char := "0123456789abcdef".data.getD n '0'

/-- Lowercase hexadecimal encoding of a byte list, as Go
`hex.EncodeToString`. -/
def hexEncode (l : List Nat) : List Char :=
  l.foldr (fun b acc => hexDigitChar (b / 16 % 16) :: hexDigitChar (b % 16) :: acc) []

/-- UTF-8 encoding of one unicode scalar value. -/
def utf8Char (c : Char) : List Nat :=
  let n := c.toNat
  if n < 128 then [n]
  else if n < 2048 then [192 + n / 64, 128 + n % 64]
  else if n < 65536 then [224 + n / 4096, 128 + n / 64 % 64, 128 + n % 64]
  else [240 + n / 262144, 128 + n / 4096 % 64, 128 + n / 64 % 64, 128 + n % 64]

/-- UTF-8 bytes of a string, the byte view Go takes when hashing. -/
def utf8Bytes (s : String) : List Nat :=
  s.data.foldr (fun c acc => utf8Char c ++ acc) []

/-- Go `strings.Split(s, sep)` for a single-character separator. -/
def splitOnChar (sep : Char) : List Char → List (List Char)
  | [] => [[]]
  | c :: cs =>
    let r := splitOnChar sep cs
    if c = sep then [] :: r
    else
      match r with
      | [] => [[c]]
      | h :: t => (c :: h) :: t

/-- Drop all trailing occurrences of `cut`, as Go
`strings.TrimRight(s, cutset)` for a one-character cutset. -/
def trimAllRight (s : List Char) (cut : Char) : List Char :=
  (s.reverse.dropWhile (fun c => c = cut)).reverse

/-- Drop all leading occurrences of `cut`, as Go `strings.TrimLeft`. -/
def trimAllLeft (s : List Char) (cut : Char) : List Char :=
  s.dropWhile (fun c => c = cut)

/-- Go `strings.TrimSuffix`. -/
def trimEnding (s suffix : List Char) : List Char :=
  if suffix.isSuffixOf s then s.take (s.length - suffix.length) else s

/-- URL resolution of `downloadAndSaveImage` (main.go lines 435-439):
protocol-relative references get `https:`, non-`http` references are
joined to the hostname, absolute references pass through. -/
def resolveImageURL (ref hostname : String) : String :=
  if "//".data.isPrefixOf ref.data then "https:" ++ ref
  else if ¬ ("http".data.isPrefixOf ref.data) then
    String.mk (trimAllRight hostname.data '/') ++ "/" ++ String.mk (trimAllLeft ref.data '/')
  else ref

/-- Value of a hexadecimal digit character. -/
def hexVal (c : Char) : Option Nat :=
  let n := c.toNat
  if 48 ≤ n ∧ n ≤ 57 then some (n - 48)
  else if 97 ≤ n ∧ n ≤ 102 then some (n - 87)
  else if 65 ≤ n ∧ n ≤ 70 then some (n - 55)
  else none

/-- Percent-decoding of a URL path, as Go `url.Parse` applies to `.Path`.
Go rejects malformed escapes with a parse error (a per-asset failure,
absorbed by the download oracle in this model); here a malformed escape
is kept literally, and multi-byte UTF-8 escape sequences decode to the
corresponding Latin-1 code points (no claim below depends on such inputs). -/
def pctDecode : List Char → List Char
  | [] => []
  | '%' :: h1 :: h2 :: rest =>
    match hexVal h1, hexVal h2 with
    | some a, some b => Char.ofNat (16 * a + b) :: pctDecode rest
    | _, _ => '%' :: pctDecode (h1 :: h2 :: rest)
  | c :: cs => c :: pctDecode cs

/-- Position just after the first `://`, if any. -/
def afterSchemeSep : List Char → Option (List Char)
  | [] => none
  | c :: cs =>
    if c = ':' then
      match cs with
      | s1 :: s2 :: rest =>
        if s1 = '/' ∧ s2 = '/' then some rest else afterSchemeSep cs
      | _ => afterSchemeSep cs
    else afterSchemeSep cs

/-- Model of Go `url.Parse(u).Path` for the http(s)-style URLs this
program produces: drop the fragment, drop `scheme://authority`, cut the
query, percent-decode.  (Opaque non-hierarchical URLs are out of scope;
the program only parses URLs it has just resolved to `http...` form.) -/
def urlPathOf (u : String) : String :=
  let noFrag := u.data.takeWhile (fun c => c ≠ '#')
  match afterSchemeSep noFrag with
  | some rest =>
    String.mk (pctDecode ((rest.dropWhile (fun c => c ≠ '/')).takeWhile (fun c => c ≠ '?')))
  | none => String.mk (pctDecode (noFrag.takeWhile (fun c => c ≠ '?')))

/-- Go `filepath.Base` on slash-separated paths. -/
def baseOf (path : List Char) : List Char :=
  if path = [] then ['.']
  else
    let p := trimAllRight path '/'
    if p = [] then ['/']
    else (p.reverse.takeWhile (fun c => c ≠ '/')).reverse

/-- Go `filepath.Ext`: the suffix starting at the final dot in the final
slash-separated element, empty if there is no dot. -/
def extOf (path : List Char) : List Char :=
  let pre := path.reverse.takeWhile (fun c => c ≠ '/')
  let beforeDot := pre.takeWhile (fun c => c ≠ '.')
  if beforeDot.length < pre.length then (pre.take (beforeDot.length + 1)).reverse
  else []

/-- The transliteration table `cyrillicToLatin` of main.go lines 29-44. -/
def cyrillicToLatin (c : Char) : Option String :=
  match c with
  | 'А' => some "A" | 'Б' => some "B" | 'В' => some "V" | 'Г' => some "H"
  | 'Ґ' => some "G" | 'Д' => some "D" | 'Е' => some "E" | 'Є' => some "Ye"
  | 'Ж' => some "Zh" | 'З' => some "Z" | 'И' => some "Y" | 'І' => some "I"
  | 'Ї' => some "Yi" | 'Й' => some "Y" | 'К' => some "K" | 'Л' => some "L"
  | 'М' => some "M" | 'Н' => some "N" | 'О' => some "O" | 'П' => some "P"
  | 'Р' => some "R" | 'С' => some "S" | 'Т' => some "T" | 'У' => some "U"
  | 'Ф' => some "F" | 'Х' => some "Kh" | 'Ц' => some "Ts" | 'Ч' => some "Ch"
  | 'Ш' => some "Sh" | 'Щ' => some "Shch" | 'Ю' => some "Yu" | 'Я' => some "Ya"
  | 'Ь' => some ""
  | 'а' => some "a" | 'б' => some "b" | 'в' => some "v" | 'г' => some "h"
  | 'ґ' => some "g" | 'д' => some "d" | 'е' => some "e" | 'є' => some "ye"
  | 'ж' => some "zh" | 'з' => some "z" | 'и' => some "y" | 'і' => some "i"
  | 'ї' => some "yi" | 'й' => some "y" | 'к' => some "k" | 'л' => some "l"
  | 'м' => some "m" | 'н' => some "n" | 'о' => some "o" | 'п' => some "p"
  | 'р' => some "r" | 'с' => some "s" | 'т' => some "t" | 'у' => some "u"
  | 'ф' => some "f" | 'х' => some "kh" | 'ц' => some "ts" | 'ч' => some "ch"
  | 'ш' => some "sh" | 'щ' => some "shch" | 'ю' => some "yu" | 'я' => some "ya"
  | 'ь' => some ""
  | 'Ё' => some "E" | 'Ы' => some "Y" | 'Э' => some "E"
  | 'ё' => some "e" | 'ы' => some "y" | 'э' => some "e"
  | _ => none

/-- ASCII word character, Go regexp `\w` (ASCII-only by default). -/
def isWordChar (c : Char) : Bool :=
  let n := c.toNat
  (48 ≤ n && n ≤ 57) || (65 ≤ n && n ≤ 90) || (97 ≤ n && n ≤ 122) || n = 95

/-- ASCII letter test.  `transliterate` step 3 uses `unicode.IsLetter`,
but its input has already been restricted to ASCII `[\w-]` by step 2, on
which the two predicates agree. -/
def isAsciiLetter (c : Char) : Bool :=
  let n := c.toNat
  (65 ≤ n && n ≤ 90) || (97 ≤ n && n ≤ 122)

/-- ASCII digit test (agrees with `unicode.IsDigit` on ASCII input). -/
def isAsciiDigit (c : Char) : Bool :=
  let n := c.toNat
  48 ≤ n && n ≤ 57

/-- ASCII lower-casing (agrees with Go `strings.ToLower` on the ASCII
strings step 3 produces). -/
def asciiLower (c : Char) : Char :=
  let n := c.toNat
  if 65 ≤ n ∧ n ≤ 90 then Char.ofNat (n + 32) else c

/-- The `transliterate` pipeline of main.go lines 586-613, on rune lists:
transliterate Cyrillic, map spaces to dashes, strip non-`[\w-]`,
keep only letters, digits and dashes, lower-case. -/
def transliterateL (l : List Char) : List Char :=
  let s1 := l.foldr (fun c acc =>
    (match cyrillicToLatin c with
     | some s => s.data
     | none => [c]) ++ acc) []
  let s2 := (s1.map (fun c => if c = ' ' then '-' else c)).filter
    (fun c => isWordChar c || c = '-')
  let s3 := s2.filter (fun c => c = '-' || isAsciiLetter c || isAsciiDigit c)
  s3.map asciiLower

/-- `transliterate` on strings. -/
def transliterate (s : String) : String := String.mk (transliterateL s.data)

/-- The body (everything before the extension) and the extension of the
filename synthesized by `downloadAndSaveImage` (main.go lines 441-476):
`transliterate(hash4 ++ "-" ++ uniquePart ++ "-" ++ base)` and the
(defaulted) extension, appended untransliterated. -/
def imageFilenameParts (ref hostname : String) : String × String :=
  let u := resolveImageURL ref hostname
  let path := (urlPathOf u).data
  let parts := splitOnChar '/' path
  let uniquePart :=
    if 3 ≤ parts.length then
      parts.getD (parts.length - 3) [] ++ '_' :: parts.getD (parts.length - 2) []
    else if 2 ≤ parts.length then parts.getD (parts.length - 2) []
    else []
  let fwe := (splitOnChar '?' (baseOf path)).headD []
  let ext0 := extOf fwe
  let extension := if ext0 = [] then ".jpg".data else ext0
  let base := trimEnding fwe (extOf fwe)
  let hash := (hexEncode (sha1Bytes (utf8Bytes u))).take 4
  (String.mk (transliterateL (hash ++ '-' :: (uniquePart ++ '-' :: base))),
   String.mk extension)

/-- The full synthesized local filename for a reference. -/
def imageFilename (ref hostname : String) : String :=
  (imageFilenameParts ref hostname).1 ++ (imageFilenameParts ref hostname).2

/-- The relative path substituted into HTML: `imagedir ++ filename`
(`filepath.ToSlash` is the identity on these slash-separated paths). -/
def relativePathOf (ref hostname imagedir : String) : String :=
  imagedir ++ imageFilename ref hostname

/-- Quote character test, the regexp class `["']`. -/
def isQuote (c : Char) : Bool := c = '"' || c = squote

/-- Match of the pattern tail `["']([^"']+)["'][^>]*>` at the head of `l`:
returns the captured value and the number of characters consumed.  The
greedy sub-matches here are deterministic: the capture runs to the first
quote, and `[^>]*>` runs through the first `>`. -/
def srcValMatch (l : List Char) : Option (List Char × Nat) :=
  match l with
  | [] => none
  | q :: rest =>
    if isQuote q then
      let v := rest.takeWhile (fun c => !(isQuote c))
      if v = [] then none
      else
        match rest.drop v.length with
        | q2 :: rest2 =>
          if isQuote q2 then
            let w := rest2.takeWhile (fun c => c != '>')
            match rest2.drop w.length with
            | gt :: _ => if gt = '>' then some (v, 1 + v.length + 1 + w.length + 1) else none
            | [] => none
          else none
        | [] => none
    else none

/-- Backtracking over the greedy `[^>]+` of the img-tag pattern: try the
quantifier length `k`, then `k - 1`, ..., then `1`, each time demanding
the literal `src=` followed by a `srcValMatch`.  Returns the capture and
the characters consumed after `<img`. -/
def tryK (l : List Char) : Nat → Option (List Char × Nat)
  | 0 => none
  | k + 1 =>
    let cand := l.drop (k + 1)
    if cand.take 4 = "src=".data then
      match srcValMatch (cand.drop 4) with
      | some (v, m) => some (v, (k + 1) + 4 + m)
      | none => tryK l k
    else tryK l k

/-- Leftmost-first match of Go regexp `<img[^>]+src=["']([^"']+)["'][^>]*>`
at the head of `l`: the capture of group 1 and the total match length. -/
def imgMatchAt (l : List Char) : Option (List Char × Nat) :=
  if l.take 4 = "<img".data then
    let body := l.drop 4
    match tryK body (body.takeWhile (fun c => c ≠ '>')).length with
    | some (v, m) => some (v, 4 + m)
    | none => none
  else none

/-- A segment of scanned HTML: a raw (unmatched) run of characters, or a
matched img tag together with the group-1 capture. -/
inductive Seg where
  | raw : List Char → Seg
  | tag : List Char → List Char → Seg
deriving DecidableEq

/-- The text a segment stands for. -/
def segText : Seg → List Char
  | Seg.raw cs => cs
  | Seg.tag whole _ => whole

/-- Concatenation of segment texts. -/
def segsJoin (segs : List Seg) : List Char :=
  segs.foldr (fun s acc => segText s ++ acc) []

/-- Fuel-driven left-to-right scan for non-overlapping leftmost matches of
the img-tag pattern, as Go `FindAllStringSubmatch` /
`ReplaceAllStringFunc` traverse the subject.  If fuel runs out the rest
is emitted raw (unreachable for `fuel ≥ length`). -/
def scanGo : Nat → List Char → List Seg
  | 0, l => if l = [] then [] else [Seg.raw l]
  | _ + 1, [] => []
  | fuel + 1, c :: cs =>
    match imgMatchAt (c :: cs) with
    | some (v, n) => Seg.tag ((c :: cs).take n) v :: scanGo fuel ((c :: cs).drop n)
    | none => Seg.raw [c] :: scanGo fuel cs

/-- Scan a character list into segments. -/
def scanChars (l : List Char) : List Seg := scanGo l.length l

/-- `extractImageLinks` (main.go lines 405-413): the group-1 captures of
all matches of the img-tag pattern. -/
def extractImageLinks (htmlContent : String) : List String :=
  (scanChars htmlContent.data).filterMap (fun s =>
    match s with
    | Seg.tag _ v => some (String.mk v)
    | Seg.raw _ => none)

/-- Leftmost match value of the inner pattern `src=["']([^"']+)["']` that
the `replaceImageLinks` callback re-runs on each matched tag
(`srcRe.FindStringSubmatch`). -/
def findSrcAttr : List Char → Option (List Char)
  | [] => none
  | c :: cs =>
    let here :=
      if (c :: cs).take 4 = "src=".data then
        match srcValMatch ((c :: cs).drop 4) with
        | some (v, _) => some v
        | none => none
      else none
    match here with
    | some v => some v
    | none => findSrcAttr cs

/-- Go `strings.Replace(s, old, new, 1)`: replace the first occurrence. -/
def replaceFirst (s old new : List Char) : List Char :=
  match s with
  | [] => if old = [] then new else []
  | c :: cs =>
    if old.isPrefixOf (c :: cs) then new ++ (c :: cs).drop old.length
    else c :: replaceFirst cs old new

/-- The `replaceImageLinks` callback on one matched tag (main.go lines
418-427): re-find the first `src=`-shaped value, look it up in the map,
and if present replace its first occurrence anywhere in the tag text. -/
def rewriteTag (m : List (String × String)) (whole : List Char) : List Char :=
  match findSrcAttr whole with
  | some v =>
    match List.lookup (String.mk v) m with
    | some newPath => replaceFirst whole v newPath.data
    | none => whole
  | none => whole

/-- Per-segment rewrite: raw text passes through, matched tags go through
the callback. -/
def rewriteSeg (m : List (String × String)) : Seg → List Char
  | Seg.raw cs => cs
  | Seg.tag whole _ => rewriteTag m whole

/-- `replaceImageLinks` (main.go lines 416-430), with the Go map modelled
as an association list (`List.lookup`). -/
def replaceImageLinks (htmlContent : String) (m : List (String × String)) : String :=
  String.mk ((scanChars htmlContent.data).foldr (fun s acc => rewriteSeg m s ++ acc) [])

/-- The src values the rewriter looks up, one per matched tag (these come
from the inner `src=` pattern and can differ from the outer captures). -/
def lookupSrcValues (htmlContent : String) : List String :=
  (scanChars htmlContent.data).filterMap (fun s =>
    match s with
    | Seg.tag whole _ => (findSrcAttr whole).map (fun v => String.mk v)
    | Seg.raw _ => none)

/-- Substring test (used to state counterexamples). -/
def containsSubL (sub : List Char) : List Char → Bool
  | [] => sub.isPrefixOf []
  | c :: cs => sub.isPrefixOf (c :: cs) || containsSubL sub cs

/-- String-level substring test. -/
def strContains (s sub : String) : Bool := containsSubL sub.data s.data

/-- Insertion-ordered deduplication, the contents of the Go set
`imageLinkSet` (map iteration order is irrelevant to every claim below). -/
def dedupKeep (xs : List String) : List String :=
  xs.foldl (fun acc x => if x ∈ acc then acc else acc ++ [x]) []

/-- Index of a header name: Go builds `headerMap[h] = i` over all headers,
so a duplicated name keeps its last index. -/
def headerIndex (headers : List String) (name : String) : Option Nat :=
  headers.enum.foldl (fun acc p => if p.2 = name then some p.1 else acc) none

/-- Column access.  Go indexes `row[i]` directly (and would panic on a
short row); theorems about full runs assume well-formed rows. -/
def getCol (row : List String) (i : Nat) : String := row.getD i ""

/-- All raw extracted occurrences over the data rows, `body_uk` then
`body_ru` per row (main.go lines 319-332). -/
def rawRefs (rows : List (List String)) (iUk iRu : Nat) : List String :=
  rows.foldr (fun row acc =>
    extractImageLinks (getCol row iUk) ++ extractImageLinks (getCol row iRu) ++ acc) []

/-- The deduplicated reference set, as a list. -/
def collectRefs (rows : List (List String)) (iUk iRu : Nat) : List String :=
  dedupKeep (rawRefs rows iUk iRu)

/-- The reference-to-relative-path map built by the fetch tasks: one entry
per distinct link whose download succeeds (per the oracle `ok`); a failed
task returns before inserting (main.go lines 351-371). -/
def imagePathMap (links : List String) (hostname imagedir : String)
    (ok : String → Bool) : List (String × String) :=
  links.filterMap (fun l =>
    if ok l then some (l, relativePathOf l hostname imagedir) else none)

/-- Rewrite of one data row (main.go lines 376-384): both HTML columns are
read first, then written back. -/
def rewriteRow (row : List String) (iUk iRu : Nat)
    (m : List (String × String)) : List String :=
  let bUk := getCol row iUk
  let bRu := getCol row iRu
  (row.set iUk (replaceImageLinks bUk m)).set iRu (replaceImageLinks bRu m)

/-- Fractional progress values `(start+1)/total, ..., (start+cnt)/total`,
as rationals.  Go divides float64s; for the interval claims below the
rational value is a faithful abstraction (0 and 1 are exact and rounding
is monotone), except that Go produces NaN when `total = 0`, so interval
claims are stated for `total > 0`. -/
def fracTrace (start cnt total : Nat) : List ℚ :=
  (List.range cnt).map (fun k => ((start + k + 1 : Nat) : ℚ) / (total : ℚ))

deriving instance DecidableEq for Except

/-- Result of a `processRecords` run: the outcome (error or the records to
be written to the output CSV), the distinct references for which a
download task was launched, and the emitted fractional progress values in
order.  Successful downloads each emit one value (the shared counter is
incremented under the mutex, so the i-th completion emits i/total
regardless of scheduling); every row rewrite then emits one more value
over the same denominator. -/
structure ProcResult where
  outcome : Except String (List (List String))
  attempted : List String
  progressValues : List ℚ
deriving DecidableEq

/-- `processRecords` (main.go lines 295-402): validate, collect, download
(abstracted by the `ok` oracle), rewrite, and report.  The output-file
write (`writeCSV`) is modelled by returning the records in the `.ok`
outcome. -/
def processRecords (records : List (List String)) (hostname imagedir : String)
    (ok : String → Bool) : ProcResult :=
  if records.length < 2 then ⟨Except.error "No data in CSV", [], []⟩
  else
    let headers := records.headD []
    match headerIndex headers "body_uk", headerIndex headers "body_ru" with
    | none, _ => ⟨Except.error "Missing required column: body_uk", [], []⟩
    | some _, none => ⟨Except.error "Missing required column: body_ru", [], []⟩
    | some iUk, some iRu =>
      let rows := records.drop 1
      let links := collectRefs rows iUk iRu
      let m := imagePathMap links hostname imagedir ok
      let d := links.countP (fun l => ok l)
      ⟨Except.ok (headers :: rows.map (fun r => rewriteRow r iUk iRu m)),
       links,
       0 :: (fracTrace 0 d links.length ++ fracTrace d rows.length links.length)⟩

/-- Row `r`, column `c` of a successful outcome (empty on error). -/
def getOutRow (res : ProcResult) (r c : Nat) : String :=
  match res.outcome with
  | Except.ok rows => getCol (rows.getD r []) c
  | Except.error _ => ""

/-- Is the run outcome a success. -/
def isOkOutcome : Except String (List (List String)) → Bool
  | Except.ok _ => true
  | Except.error _ => false

/-- Trailing slashes stripped, worded as in claim C4 (recursive form,
compared below against the `strings.TrimRight` model used by the code). -/
def stripSlashesEnd : List Char → List Char
  | [] => []
  | c :: cs =>
    let r := stripSlashesEnd cs
    if c = '/' ∧ r = [] then [] else c :: r

/-- Leading slashes stripped, worded as in claim C4. -/
def stripSlashesStart : List Char → List Char
  | [] => []
  | c :: cs => if c = '/' then stripSlashesStart cs else c :: cs

/-- The resolution rules exactly as claim C4 words them, in order:
protocol-relative, host-relative join, already absolute. -/
def resolveRulesSpec (r h : String) : String :=
  if r.data.take 2 = "//".data then "https:" ++ r
  else if ¬ (r.data.take 4 = "http".data) then
    String.mk (stripSlashesEnd h.data) ++ "/" ++ String.mk (stripSlashesStart r.data)
  else r

/-- Lowercase ASCII letter or digit. -/
def isLowerAlnum (c : Char) : Bool :=
  (48 ≤ c.toNat && c.toNat ≤ 57) || (97 ≤ c.toNat && c.toNat ≤ 122)

/-- Character class `[a-z0-9-]` of the claimed filename pattern. -/
def lowerAlnumDash (c : Char) : Bool := isLowerAlnum c || c = '-'

/-- Non-empty run of lowercase alphanumerics, the `[a-z0-9]+` after the
dot of the claimed pattern (the class itself excludes further dots). -/
def extTailOK (l : List Char) : Bool := !l.isEmpty && l.all isLowerAlnum

/-- Left-to-right matcher for the regular expression
`[a-z0-9-]+[.][a-z0-9]+` anchored at both ends; `seen` records whether a
body character precedes the dot. -/
def fnScan : Bool → List Char → Bool
  | _, [] => false
  | seen, c :: cs =>
    if c = '.' then seen && extTailOK cs else lowerAlnumDash c && fnScan true cs

/-- Whether a string matches the claimed filename pattern. -/
def matchesFilenamePattern (s : String) : Bool := fnScan false s.data

/-- Whether an extension is a dot followed by a non-empty lowercase
alphanumeric run. -/
def extShapeOK : List Char → Bool
  | '.' :: rest => extTailOK rest
  | _ => false

/-- Single-quote character as a string, to build HTML fixtures. -/
def sqs : String := String.mk [squote]

/-- The input rows of claim C5. -/
def rec5 : List (List String) :=
  [["body_uk", "body_ru"],
   ["<img src=" ++ sqs ++ "/a.jpg" ++ sqs ++ ">", ""],
   ["<img src=" ++ sqs ++ "http://x.com/b.png" ++ sqs ++ ">", ""]]

/-- Input rows for claim C6: the reference `qa` will fail to download;
row 1 also cites the literal `qa` inside another attribute of a tag whose
own reference `a` succeeds. -/
def rec6 : List (List String) :=
  [["body_uk", "body_ru"],
   ["<img zz=\"qa\" src=\"a\">", ""],
   ["<img src=\"qa\">", ""]]

/-- Input rows for claim C8: one data row citing one distinct image. -/
def rec8 : List (List String) :=
  [["body_uk", "body_ru"], ["<img src=\"x.png\">", ""]]

/-- Lowercase hexadecimal digit character. -/
def isHexLowerChar (c : Char) : Bool :=
  isAsciiDigit c || (97 ≤ c.toNat && c.toNat ≤ 102)

/-- Whether `s` has the shape `imagedir`, four lowercase hex digits, then
exactly `tail` (used to formalize the filename shape claim C5 makes). -/
def hashDashShape (imagedir tail s : String) : Bool :=
  let l := s.data
  let pre := imagedir.data
  (l.take pre.length == pre) &&
  ((l.drop pre.length).take 4).all isHexLowerChar &&
  ((l.drop pre.length).length == 4 + tail.data.length) &&
  (l.drop (pre.length + 4) == tail.data)

/-- Unfolding lemma for `segsJoin`. -/
theorem segsJoin_cons (s : Seg) (rest : List Seg) :
    segsJoin (s :: rest) = segText s ++ segsJoin rest := rfl

/-- The scan loses no characters: joining the segments gives back the
input, for any fuel. -/
theorem scanGo_join : ∀ (fuel : Nat) (l : List Char), segsJoin (scanGo fuel l) = l := by
  intro fuel
  induction fuel with
  | zero =>
    intro l
    by_cases h : l = []
    · subst h; simp [scanGo, segsJoin]
    · simp [scanGo, h, segsJoin, segText]
  | succ n ih =>
    intro l
    cases l with
    | nil => simp [scanGo, segsJoin]
    | cons c cs =>
      cases h : imgMatchAt (c :: cs) with
      | none => simp [scanGo, h, segsJoin_cons, segText, ih]
      | some p =>
        cases p with
        | mk v k =>
          simp [scanGo, h, segsJoin_cons, segText, ih, List.take_append_drop]

/-- The scan loses no characters. -/
theorem scanChars_join (l : List Char) : segsJoin (scanChars l) = l := by
  simp [scanChars, scanGo_join]

/-- If every segment rewrites to itself, the rewritten fold is the plain
join. -/
theorem foldr_rewrite_congr (m : List (String × String)) :
    ∀ segs : List Seg, (∀ seg ∈ segs, rewriteSeg m seg = segText seg) →
      segs.foldr (fun s acc => rewriteSeg m s ++ acc) [] = segsJoin segs := by
  intro segs
  induction segs with
  | nil => intro _; rfl
  | cons s rest ih =>
    intro h
    show rewriteSeg m s ++ rest.foldr (fun s acc => rewriteSeg m s ++ acc) [] = _
    rw [segsJoin_cons, h s (List.mem_cons_self _ _),
      ih (fun x hx => h x (List.mem_cons_of_mem _ hx))]

/-- A tag whose looked-up src value is not a key of the map is left
unchanged by the rewrite callback. -/
theorem rewriteTag_id (m : List (String × String)) (whole : List Char)
    (h : ∀ v, findSrcAttr whole = some v → List.lookup (String.mk v) m = none) :
    rewriteTag m whole = whole := by
  unfold rewriteTag
  cases hv : findSrcAttr whole with
  | none => rfl
  | some v => simp [h v hv]

/-- If no looked-up src value of the blob is a key of the map, the whole
blob is returned unchanged. -/
theorem replaceImageLinks_id (s : String) (m : List (String × String))
    (h : ∀ l ∈ lookupSrcValues s, List.lookup l m = none) :
    replaceImageLinks s m = s := by
  have H : ∀ seg ∈ scanChars s.data, rewriteSeg m seg = segText seg := by
    intro seg hseg
    cases seg with
    | raw cs => rfl
    | tag whole v =>
      show rewriteTag m whole = whole
      apply rewriteTag_id
      intro v' hv'
      apply h
      apply List.mem_filterMap.mpr
      exact ⟨Seg.tag whole v, hseg, by simp [hv']⟩
  show String.mk ((scanChars s.data).foldr (fun s acc => rewriteSeg m s ++ acc) []) = s
  rw [foldr_rewrite_congr m _ H, scanChars_join]

/-- Boolean prefix test agrees with `List.take`. -/
theorem isPrefixOf_eq_take (p : List Char) :
    ∀ l : List Char, p.isPrefixOf l = true ↔ l.take p.length = p := by
  induction p with
  | nil => intro l; simp [List.isPrefixOf]
  | cons a p ih =>
    intro l
    cases l with
    | nil => simp [List.isPrefixOf]
    | cons b l' => simp [List.isPrefixOf, ih l', eq_comm (a := a) (b := b), and_comm]

/-- Dropping a matching run from the end of `xs ++ [c]`. -/
theorem dropWhile_append_single (p : Char → Bool) (c : Char) :
    ∀ xs : List Char, (xs ++ [c]).dropWhile p =
      if xs.dropWhile p = [] then (if p c then [] else [c])
      else xs.dropWhile p ++ [c] := by
  intro xs
  induction xs with
  | nil => by_cases hc : p c <;> simp [List.dropWhile, hc]
  | cons x xs ih =>
    by_cases hx : p x
    · simpa [List.dropWhile, hx] using ih
    · simp [List.dropWhile, hx]

/-- The recursive trailing-slash strip agrees with the `TrimRight`
model. -/
theorem stripSlashesEnd_eq : ∀ l : List Char, stripSlashesEnd l = trimAllRight l '/' := by
  intro l
  induction l with
  | nil => rfl
  | cons c cs ih =>
    show (if c = '/' ∧ stripSlashesEnd cs = [] then [] else c :: stripSlashesEnd cs) = _
    have hrev : (c :: cs).reverse = cs.reverse ++ [c] := by simp
    unfold trimAllRight
    rw [hrev, dropWhile_append_single]
    by_cases hnil : cs.reverse.dropWhile (fun x => x = '/') = []
    · have hcs : trimAllRight cs '/' = [] := by
        unfold trimAllRight; rw [hnil]; rfl
      by_cases hc : c = '/'
      · simp [hc, ih, hcs, hnil]
      · simp [hc, ih, hcs, hnil]
    · have hcs : ¬ (trimAllRight cs '/' = []) := by
        unfold trimAllRight
        intro hx
        exact hnil (by simpa using congrArg List.reverse hx)
      simp [hnil, ih, hcs, trimAllRight]

/-- The recursive leading-slash strip agrees with the `TrimLeft` model. -/
theorem stripSlashesStart_eq : ∀ l : List Char, stripSlashesStart l = trimAllLeft l '/' := by
  intro l
  induction l with
  | nil => rfl
  | cons c cs ih =>
    by_cases hc : c = '/'
    · simpa [stripSlashesStart, trimAllLeft, List.dropWhile, hc] using ih
    · simp [stripSlashesStart, trimAllLeft, List.dropWhile, hc]

/-- Claim C4 (confirmed): the URL resolver of `downloadAndSaveImage`
obeys exactly the three rules, in order: a reference starting with `//`
gets `https:` prepended; otherwise a reference not starting with `http`
is joined as hostname-without-trailing-slashes, one slash, and the
reference without leading slashes; otherwise the reference is returned
unchanged. -/
theorem C4_url_resolution (r h : String) : resolveImageURL r h = resolveRulesSpec r h := by
  unfold resolveImageURL resolveRulesSpec
  by_cases h2 : r.data.take 2 = "//".data
  · have hp : "//".data.isPrefixOf r.data = true := (isPrefixOf_eq_take _ _).mpr h2
    simp [hp, h2]
  · have hp : ¬ ("//".data.isPrefixOf r.data = true) := fun hx => h2 ((isPrefixOf_eq_take _ _).mp hx)
    by_cases h4 : r.data.take 4 = "http".data
    · have hq : "http".data.isPrefixOf r.data = true := (isPrefixOf_eq_take _ _).mpr h4
      simp [hp, h2, hq, h4]
    · have hq : ¬ ("http".data.isPrefixOf r.data = true) := fun hx => h4 ((isPrefixOf_eq_take _ _).mp hx)
      simp [hp, h2, hq, h4, stripSlashesEnd_eq, stripSlashesStart_eq]

/-- Claim C2, counterexample: rewriting is not idempotent for every map.
`strings.Replace(tag, src, new, 1)` replaces the first occurrence of the
src value anywhere in the tag, so with the tag
`<img alt="qq" src="qq">` and map `qq to zz` the first pass rewrites the
`alt` value, leaving `src="qq"` still a key, and the second pass rewrites
again. -/
theorem C2_not_idempotent :
    replaceImageLinks (replaceImageLinks "<img alt=\"qq\" src=\"qq\">" [("qq", "zz")])
        [("qq", "zz")] ≠
      replaceImageLinks "<img alt=\"qq\" src=\"qq\">" [("qq", "zz")] := by decide

/-- Claim C2 (corrected): rewriting with the same map a second time
changes nothing provided no src value looked up in the once-rewritten
HTML is still a key of the map (which the orchestrator arranges by
keying the map on original references). -/
theorem C2_idempotent_when_keys_gone (html : String) (m : List (String × String))
    (h : ∀ l ∈ lookupSrcValues (replaceImageLinks html m), List.lookup l m = none) :
    replaceImageLinks (replaceImageLinks html m) m = replaceImageLinks html m :=
  replaceImageLinks_id _ m h

/-- Witness for the corrected claim C2 at a concrete input. -/
theorem C2_idempotent_when_keys_gone_witness :
    replaceImageLinks (replaceImageLinks "<img src=\"aa\">" [("aa", "bb")])
        [("aa", "bb")] =
      replaceImageLinks "<img src=\"aa\">" [("aa", "bb")] :=
  C2_idempotent_when_keys_gone "<img src=\"aa\">" [("aa", "bb")] (by decide)

/-- Claim C3, counterexample: the rewrite can modify bytes other than the
src attribute value.  With `<img alt="ww" src="ww">` and map `ww to vv`
the first occurrence of `ww` is the `alt` value, so the `alt` attribute
changes while `src` keeps its old value, instead of the claimed
src-only rewrite. -/
theorem C3_not_frame_exact :
    replaceImageLinks "<img alt=\"ww\" src=\"ww\">" [("ww", "vv")] =
        "<img alt=\"vv\" src=\"ww\">" ∧
      replaceImageLinks "<img alt=\"ww\" src=\"ww\">" [("ww", "vv")] ≠
        "<img alt=\"ww\" src=\"vv\">" := by decide

/-- Claim C3 (corrected): the rewrite replaces matched img tags strictly
in place (joining the scanned segments reproduces the blob, and the
output is the segment-wise rewrite with raw segments untouched); a
matched tag is left unchanged whenever its looked-up src value is not a
key of the map; and if no looked-up src value of the blob is a key — in
particular if the blob has no img tag match at all — the blob is
returned byte-identical.  Within a rewritten tag, however, the first
occurrence of the looked-up value anywhere in the tag text is what gets
replaced. -/
theorem C3_frame (s : String) (m : List (String × String)) :
    segsJoin (scanChars s.data) = s.data ∧
    (replaceImageLinks s m).data =
      (scanChars s.data).foldr (fun seg acc => rewriteSeg m seg ++ acc) [] ∧
    (∀ cs, rewriteSeg m (Seg.raw cs) = cs) ∧
    (∀ whole, (∀ v, findSrcAttr whole = some v →
        List.lookup (String.mk v) m = none) → rewriteTag m whole = whole) ∧
    ((∀ l ∈ lookupSrcValues s, List.lookup l m = none) → replaceImageLinks s m = s) := by
  refine ⟨scanChars_join s.data, rfl, fun cs => rfl, rewriteTag_id m, ?_⟩
  exact replaceImageLinks_id s m

/-- Witness for the corrected claim C3: a blob with no img tags passes
through unchanged. -/
theorem C3_frame_witness :
    replaceImageLinks "paragraph with no image tags" [("a", "b")] =
      "paragraph with no image tags" :=
  (C3_frame "paragraph with no image tags" [("a", "b")]).2.2.2.2 (by decide)

/-- Claim C7 (confirmed): a missing `body_uk` or `body_ru` column, or a
table with fewer than two rows, makes `processRecords` fail before any
reference is collected, any download task is launched, or any progress
is emitted, for every download oracle; no output rows are produced. -/
theorem C7_schema_abort (records : List (List String)) (hostname imagedir : String)
    (ok : String → Bool)
    (h : records.length < 2 ∨ headerIndex (records.headD []) "body_uk" = none ∨
      headerIndex (records.headD []) "body_ru" = none) :
    isOkOutcome (processRecords records hostname imagedir ok).outcome = false ∧
    (processRecords records hostname imagedir ok).attempted = [] ∧
    (processRecords records hostname imagedir ok).progressValues = [] := by
  simp only [processRecords]
  by_cases hl : records.length < 2
  · rw [if_pos hl]
    exact ⟨rfl, rfl, rfl⟩
  · rw [if_neg hl]
    rcases h with h | h | h
    · exact absurd h hl
    · rw [h]
      exact ⟨rfl, rfl, rfl⟩
    · cases huk : headerIndex (records.headD []) "body_uk" with
      | none => exact ⟨rfl, rfl, rfl⟩
      | some i =>
        rw [h]
        exact ⟨rfl, rfl, rfl⟩

/-- Witness for claim C7: a header lacking `body_ru` aborts with no
side effects. -/
theorem C7_schema_abort_witness :
    isOkOutcome (processRecords [["body_uk"], ["x"]] "h" "/u/" (fun _ => true)).outcome =
        false ∧
      (processRecords [["body_uk"], ["x"]] "h" "/u/" (fun _ => true)).attempted = [] ∧
      (processRecords [["body_uk"], ["x"]] "h" "/u/" (fun _ => true)).progressValues = [] :=
  C7_schema_abort [["body_uk"], ["x"]] "h" "/u/" (fun _ => true) (by decide)

/-- Membership in the set-accumulating fold. -/
theorem dedupKeep_go_mem :
    ∀ (xs acc : List String) (y : String),
      (y ∈ xs.foldl (fun acc x => if x ∈ acc then acc else acc ++ [x]) acc) ↔
        y ∈ acc ∨ y ∈ xs := by
  intro xs
  induction xs with
  | nil => intro acc y; simp
  | cons x xs ih =>
    intro acc y
    by_cases hx : x ∈ acc
    · rw [List.foldl_cons, if_pos hx, ih]
      constructor
      · rintro (h | h)
        · exact Or.inl h
        · exact Or.inr (List.mem_cons_of_mem _ h)
      · rintro (h | h)
        · exact Or.inl h
        · rcases List.mem_cons.mp h with h | h
          · subst h; exact Or.inl hx
          · exact Or.inr h
    · rw [List.foldl_cons, if_neg hx, ih]
      simp only [List.mem_append, List.mem_singleton, List.mem_cons]
      tauto

/-- The set-accumulating fold preserves freedom from duplicates. -/
theorem dedupKeep_go_nodup :
    ∀ (xs acc : List String), acc.Nodup →
      (xs.foldl (fun acc x => if x ∈ acc then acc else acc ++ [x]) acc).Nodup := by
  intro xs
  induction xs with
  | nil => intro acc h; exact h
  | cons x xs ih =>
    intro acc h
    by_cases hx : x ∈ acc
    · rw [List.foldl_cons, if_pos hx]; exact ih acc h
    · rw [List.foldl_cons, if_neg hx]
      refine ih (acc ++ [x]) ?_
      exact (List.perm_append_singleton x acc).nodup_iff.mpr (List.nodup_cons.mpr ⟨hx, h⟩)

/-- `dedupKeep` keeps exactly the members of its input. -/
theorem dedupKeep_mem (xs : List String) (y : String) : y ∈ dedupKeep xs ↔ y ∈ xs := by
  unfold dedupKeep
  rw [dedupKeep_go_mem]
  simp

/-- `dedupKeep` output has no duplicates. -/
theorem dedupKeep_nodup (xs : List String) : (dedupKeep xs).Nodup :=
  dedupKeep_go_nodup xs [] List.nodup_nil

/-- `dedupKeep` is a permutation of `List.dedup`. -/
theorem dedupKeep_perm_dedup (xs : List String) : (dedupKeep xs).Perm xs.dedup := by
  apply List.perm_iff_count.mpr
  intro a
  by_cases ha : a ∈ xs
  · rw [List.count_dedup, if_pos ha,
      List.count_eq_one_of_mem (dedupKeep_nodup xs) ((dedupKeep_mem xs a).mpr ha)]
  · rw [List.count_dedup, if_neg ha, List.count_eq_zero.mpr]
    intro hmem
    exact ha ((dedupKeep_mem xs a).mp hmem)

/-- Claim C9 (confirmed): the collected reference set holds each harvested
literal exactly once, its membership is exactly the raw harvested
occurrences, and its size equals the number of distinct literals, hence
is at most the raw occurrence count. -/
theorem C9_reference_set (rows : List (List String)) (iUk iRu : Nat) :
    (∀ l ∈ rawRefs rows iUk iRu, (collectRefs rows iUk iRu).count l = 1) ∧
    (∀ l, l ∈ collectRefs rows iUk iRu ↔ l ∈ rawRefs rows iUk iRu) ∧
    (collectRefs rows iUk iRu).length = (rawRefs rows iUk iRu).dedup.length ∧
    (collectRefs rows iUk iRu).length ≤ (rawRefs rows iUk iRu).length := by
  refine ⟨?_, ?_, ?_, ?_⟩
  · intro l hl
    exact List.count_eq_one_of_mem (dedupKeep_nodup _) ((dedupKeep_mem _ l).mpr hl)
  · intro l
    exact dedupKeep_mem _ l
  · exact (dedupKeep_perm_dedup _).length_eq
  · calc (collectRefs rows iUk iRu).length
        = (rawRefs rows iUk iRu).dedup.length := (dedupKeep_perm_dedup _).length_eq
      _ ≤ (rawRefs rows iUk iRu).length := (List.dedup_sublist _).length_le

/-- Witness for claim C9: a literal cited twice appears once in the set. -/
theorem C9_reference_set_witness :
    (collectRefs [["<img src=\"pp\">", "<img src=\"pp\">"]] 0 1).count "pp" = 1 :=
  (C9_reference_set [["<img src=\"pp\">", "<img src=\"pp\">"]] 0 1).1 "pp" (by decide)

/-- Any value captured by the src-tail matcher is non-empty and free of
quote characters (the capture class is `[^"']+`). -/
theorem srcValMatch_wf :
    ∀ (l v : List Char) (n : Nat), srcValMatch l = some (v, n) →
      v ≠ [] ∧ ∀ c ∈ v, isQuote c = false := by
  intro l v n h
  cases l with
  | nil => simp [srcValMatch] at h
  | cons q rest =>
    simp only [srcValMatch] at h
    by_cases hq : isQuote q = true
    case neg => simp [hq] at h
    case pos =>
    rw [if_pos hq] at h
    by_cases hv : rest.takeWhile (fun c => !(isQuote c)) = []
    case pos => rw [if_pos hv] at h; simp at h
    case neg =>
    rw [if_neg hv] at h
    cases hdrop : rest.drop (rest.takeWhile (fun c => !(isQuote c))).length with
    | nil => rw [hdrop] at h; simp at h
    | cons q2 rest2 =>
      simp only [hdrop] at h
      by_cases hq2 : isQuote q2 = true
      case neg => simp [hq2] at h
      case pos =>
      rw [if_pos hq2] at h
      cases hdrop2 : rest2.drop (rest2.takeWhile (fun c => c != '>')).length with
      | nil => rw [hdrop2] at h; simp at h
      | cons gt rest3 =>
        simp only [hdrop2] at h
        by_cases hgt : gt = '>'
        case neg => simp [hgt] at h
        case pos =>
        rw [if_pos hgt] at h
        rw [Option.some_inj, Prod.mk.injEq] at h
        obtain ⟨hveq, -⟩ := h
        subst hveq
        refine ⟨hv, ?_⟩
        intro c hc
        have := List.mem_takeWhile_imp hc
        simpa using this

/-- The backtracking quantifier search returns well-formed captures. -/
theorem tryK_wf :
    ∀ (k : Nat) (l v : List Char) (m : Nat), tryK l k = some (v, m) →
      v ≠ [] ∧ ∀ c ∈ v, isQuote c = false := by
  intro k
  induction k with
  | zero => intro l v m h; simp [tryK] at h
  | succ k ih =>
    intro l v m h
    simp only [tryK] at h
    by_cases hc : (l.drop (k + 1)).take 4 = "src=".data
    · rw [if_pos hc] at h
      cases hs : srcValMatch ((l.drop (k + 1)).drop 4) with
      | some p =>
        rw [hs] at h
        rw [Option.some_inj] at h
        have hv : p.1 = v := by
          have := congrArg Prod.fst h
          simpa using this
        subst hv
        exact srcValMatch_wf _ _ _ (by rw [hs])
      | none =>
        rw [hs] at h
        exact ih l v m h
    · rw [if_neg hc] at h
      exact ih l v m h

/-- The img-tag matcher returns well-formed captures. -/
theorem imgMatchAt_wf (l v : List Char) (n : Nat) (h : imgMatchAt l = some (v, n)) :
    v ≠ [] ∧ ∀ c ∈ v, isQuote c = false := by
  simp only [imgMatchAt] at h
  by_cases hc : l.take 4 = "<img".data
  · rw [if_pos hc] at h
    cases ht : tryK (l.drop 4) ((l.drop 4).takeWhile (fun c => c ≠ '>')).length with
    | some p =>
      rw [ht] at h
      rw [Option.some_inj] at h
      have hv : p.1 = v := by
        have := congrArg Prod.fst h
        simpa using this
      subst hv
      exact tryK_wf _ _ _ _ (by rw [ht])
    | none => rw [ht] at h; simp at h
  · rw [if_neg hc] at h; simp at h

/-- Every tag capture produced by the scan is well-formed. -/
theorem scanGo_tag_wf :
    ∀ (fuel : Nat) (l whole v : List Char), Seg.tag whole v ∈ scanGo fuel l →
      v ≠ [] ∧ ∀ c ∈ v, isQuote c = false := by
  intro fuel
  induction fuel with
  | zero =>
    intro l whole v h
    simp only [scanGo] at h
    by_cases hl : l = []
    · rw [if_pos hl] at h; simp at h
    · rw [if_neg hl] at h; simp at h
  | succ fuel ih =>
    intro l whole v h
    cases l with
    | nil => simp [scanGo] at h
    | cons c cs =>
      simp only [scanGo] at h
      cases him : imgMatchAt (c :: cs) with
      | some p =>
        rw [him] at h
        rcases List.mem_cons.mp h with h | h
        · have hv : p.1 = v := by
            have := congrArg (fun s => match s with | Seg.tag _ x => x | Seg.raw x => x) h
            simpa using this.symm
          subst hv
          exact imgMatchAt_wf _ _ _ (by rw [him])
        · exact ih _ _ _ h
      | none =>
        rw [him] at h
        rcases List.mem_cons.mp h with h | h
        · simp at h
        · exact ih _ _ _ h

/-- Raw harvested references all come from some extraction call. -/
theorem rawRefs_mem (iUk iRu : Nat) :
    ∀ (rows : List (List String)) (l : String),
      l ∈ rawRefs rows iUk iRu → ∃ s, l ∈ extractImageLinks s := by
  intro rows
  induction rows with
  | nil => intro l h; simp [rawRefs] at h
  | cons row rows ih =>
    intro l h
    simp only [rawRefs, List.foldr_cons, List.mem_append, or_assoc] at h
    rcases h with h | h | h
    · exact ⟨_, h⟩
    · exact ⟨_, h⟩
    · exact ih l h

/-- Claim C10 (confirmed): every extracted link is a non-empty string
containing no double- or single-quote character, hence so is every member
of the collected reference set, and every key of the reference-to-path
map is drawn from the link set. -/
theorem C10_link_wellformed :
    (∀ (s : String) (l : String), l ∈ extractImageLinks s →
      l ≠ "" ∧ l.data.all (fun c => !(isQuote c)) = true) ∧
    (∀ (rows : List (List String)) (iUk iRu : Nat) (l : String),
      l ∈ collectRefs rows iUk iRu →
      l ≠ "" ∧ l.data.all (fun c => !(isQuote c)) = true) ∧
    (∀ (links : List String) (hostname imagedir : String) (ok : String → Bool)
      (p : String × String), p ∈ imagePathMap links hostname imagedir ok →
      p.1 ∈ links) := by
  have hext : ∀ (s : String) (l : String), l ∈ extractImageLinks s →
      l ≠ "" ∧ l.data.all (fun c => !(isQuote c)) = true := by
    intro s l hl
    obtain ⟨seg, hseg, heq⟩ := List.mem_filterMap.mp hl
    cases seg with
    | raw cs => simp at heq
    | tag whole v =>
      simp only [Option.some_inj] at heq
      obtain ⟨hv, hall⟩ := scanGo_tag_wf _ _ _ _ hseg
      subst heq
      constructor
      · intro hcontra
        apply hv
        have := congrArg String.data hcontra
        simpa using this
      · rw [List.all_eq_true]
        intro c hc
        simpa using hall c hc
  refine ⟨hext, ?_, ?_⟩
  · intro rows iUk iRu l hl
    obtain ⟨s, hs⟩ := rawRefs_mem iUk iRu rows l ((dedupKeep_mem _ _).mp hl)
    exact hext s l hs
  · intro links hostname imagedir ok p hp
    obtain ⟨a, ha, heq⟩ := List.mem_filterMap.mp hp
    by_cases hoka : ok a = true
    · rw [if_pos hoka, Option.some_inj] at heq
      rw [← heq]
      exact ha
    · rw [if_neg hoka] at heq; simp at heq

/-- Witness for claim C10 at a concrete extraction. -/
theorem C10_link_wellformed_witness :
    ("pp" : String) ≠ "" ∧ ("pp" : String).data.all (fun c => !(isQuote c)) = true :=
  C10_link_wellformed.1 "<img src=\"pp\">" "pp" (by decide)

/-- String concatenation concatenates the underlying character lists. -/
theorem strData_append (a b : String) : (a ++ b).data = a.data ++ b.data := rfl

/-- Code points of valid lowercase letters round-trip through
`Char.ofNat`. -/
theorem toNat_ofNat_lower (n : Nat) (h1 : 97 ≤ n) (h2 : n ≤ 122) :
    (Char.ofNat n).toNat = n := by
  have hv : n.isValidChar := Or.inl (by omega)
  rw [Char.ofNat, dif_pos hv]
  simp [Char.ofNatAux, Char.toNat, UInt32.toNat, Nat.toUInt32]

/-- Characters surviving transliteration step 3 are in `[a-z0-9-]` after
lower-casing. -/
theorem asciiLower_class (c : Char)
    (h : (c = '-' || isAsciiLetter c || isAsciiDigit c) = true) :
    lowerAlnumDash (asciiLower c) = true := by
  simp only [Bool.or_eq_true, decide_eq_true_eq] at h
  rcases h with (h | h) | h
  · subst h; decide
  · simp only [isAsciiLetter, Bool.or_eq_true, Bool.and_eq_true, decide_eq_true_eq] at h
    unfold asciiLower
    rcases h with ⟨h1, h2⟩ | ⟨h1, h2⟩
    · rw [if_pos (by omega)]
      have hoc := toNat_ofNat_lower (c.toNat + 32) (by omega) (by omega)
      simp only [lowerAlnumDash, isLowerAlnum, hoc, Bool.or_eq_true, Bool.and_eq_true,
        decide_eq_true_eq]
      omega
    · rw [if_neg (by omega)]
      simp only [lowerAlnumDash, isLowerAlnum, Bool.or_eq_true, Bool.and_eq_true,
        decide_eq_true_eq]
      omega
  · simp only [isAsciiDigit, Bool.and_eq_true, decide_eq_true_eq] at h
    unfold asciiLower
    rw [if_neg (by omega)]
    simp only [lowerAlnumDash, isLowerAlnum, Bool.or_eq_true, Bool.and_eq_true,
      decide_eq_true_eq]
    omega

/-- Every character of a transliterated name is in `[a-z0-9-]`. -/
theorem transliterateL_class (l : List Char) :
    ∀ c ∈ transliterateL l, lowerAlnumDash c = true := by
  intro c hc
  unfold transliterateL at hc
  obtain ⟨d, hd, rfl⟩ := List.mem_map.mp hc
  exact asciiLower_class d (List.mem_filter.mp hd).2

/-- Folding a character expansion distributes over append. -/
theorem foldr_expand_append (g : Char → List Char) (a b : List Char) :
    (a ++ b).foldr (fun c acc => g c ++ acc) [] =
      a.foldr (fun c acc => g c ++ acc) [] ++ b.foldr (fun c acc => g c ++ acc) [] := by
  induction a with
  | nil => rfl
  | cons x a ih => simp [ih]

/-- Transliteration distributes over append. -/
theorem transliterateL_append (a b : List Char) :
    transliterateL (a ++ b) = transliterateL a ++ transliterateL b := by
  unfold transliterateL
  rw [foldr_expand_append]
  simp [List.map_append, List.filter_append]

/-- A lowercase hexadecimal digit passes through transliteration
unchanged. -/
theorem hexDigitChar_translit : ∀ n < 16, transliterateL [hexDigitChar n] = [hexDigitChar n] := by
  decide

/-- The four-character hash prefix starts with a lowercase hexadecimal
digit. -/
theorem hashChars_cons (msg : List Nat) :
    ∃ k t, (hexEncode (sha1Bytes msg)).take 4 = hexDigitChar k :: t ∧ k < 16 :=
  ⟨(sha1H msg).1 / 16777216 % 256 / 16 % 16, _, rfl, Nat.mod_lt _ (by omega)⟩

/-- The transliterated filename body is non-empty (the hash prefix
survives) and consists solely of `[a-z0-9-]` characters. -/
theorem imageFilenameParts_body (ref hostname : String) :
    (imageFilenameParts ref hostname).1.data ≠ [] ∧
    ∀ c ∈ (imageFilenameParts ref hostname).1.data, lowerAlnumDash c = true := by
  constructor
  · obtain ⟨k, t, htake, hk⟩ := hashChars_cons (utf8Bytes (resolveImageURL ref hostname))
    simp only [imageFilenameParts]
    rw [htake]
    rw [show (hexDigitChar k :: t) ++ '-' ::
        ((if 3 ≤ (splitOnChar '/' (urlPathOf (resolveImageURL ref hostname)).data).length then
            (splitOnChar '/' (urlPathOf (resolveImageURL ref hostname)).data).getD
              ((splitOnChar '/' (urlPathOf (resolveImageURL ref hostname)).data).length - 3) [] ++
              '_' :: (splitOnChar '/' (urlPathOf (resolveImageURL ref hostname)).data).getD
                ((splitOnChar '/' (urlPathOf (resolveImageURL ref hostname)).data).length - 2) []
          else if 2 ≤ (splitOnChar '/' (urlPathOf (resolveImageURL ref hostname)).data).length then
            (splitOnChar '/' (urlPathOf (resolveImageURL ref hostname)).data).getD
              ((splitOnChar '/' (urlPathOf (resolveImageURL ref hostname)).data).length - 2) []
          else []) ++ '-' ::
            trimEnding ((splitOnChar '?'
                (baseOf (urlPathOf (resolveImageURL ref hostname)).data)).headD [])
              (extOf ((splitOnChar '?'
                (baseOf (urlPathOf (resolveImageURL ref hostname)).data)).headD []))) =
        [hexDigitChar k] ++ (t ++ '-' :: _) from rfl]
    rw [transliterateL_append, hexDigitChar_translit k hk]
    simp

  · intro c hc
    simp only [imageFilenameParts] at hc
    exact transliterateL_class _ c hc

/-- Scanning a class-clean body followed by a well-formed dot extension
succeeds once a body character has been seen. -/
theorem fnScan_body_true (e : List Char) (he : extTailOK e = true) :
    ∀ body : List Char, (∀ c ∈ body, lowerAlnumDash c = true) →
      fnScan true (body ++ '.' :: e) = true := by
  intro body
  induction body with
  | nil => intro _; simp [fnScan, he]
  | cons c body ih =>
    intro h
    have hc := h c (List.mem_cons_self _ _)
    have hcd : ¬ (c = '.') := by
      intro hcc
      subst hcc
      exact absurd hc (by decide)
    show fnScan true (c :: (body ++ '.' :: e)) = true
    simp only [fnScan, if_neg hcd]
    rw [hc, ih (fun x hx => h x (List.mem_cons_of_mem _ hx))]
    rfl

/-- A non-empty class-clean body and a well-formed extension match the
claimed filename pattern. -/
theorem matchesFilenamePattern_of (body e : List Char)
    (hb : body ≠ []) (hbc : ∀ c ∈ body, lowerAlnumDash c = true)
    (he : extShapeOK e = true) :
    fnScan false (body ++ e) = true := by
  unfold extShapeOK at he
  split at he
  case h_2 => exact absurd he (by simp)
  case h_1 rest =>
    cases body with
    | nil => exact absurd rfl hb
    | cons c bodyrest =>
      have hc := hbc c (List.mem_cons_self _ _)
      have hcd : ¬ (c = '.') := by
        intro hcc
        subst hcc
        exact absurd hc (by decide)
      show fnScan false (c :: (bodyrest ++ '.' :: rest)) = true
      simp only [fnScan, if_neg hcd]
      rw [hc, fnScan_body_true rest he bodyrest
        (fun x hx => hbc x (List.mem_cons_of_mem _ hx))]
      rfl

/-- Claim C1 (corrected): for every input reference and hostname the
synthesized filename body (hash, directory token, transliterated base)
is non-empty and consists solely of `[a-z0-9-]`; the extension, however,
is appended verbatim after transliteration, so the full filename matches
the claimed pattern `[a-z0-9-]+` dot `[a-z0-9]+` exactly when the
(defaulted) extension is a dot followed by lowercase alphanumerics —
which an uppercase or otherwise unsanitized URL extension violates. -/
theorem C1_filename_shape (ref hostname : String) :
    (imageFilenameParts ref hostname).1.data ≠ [] ∧
    (∀ c ∈ (imageFilenameParts ref hostname).1.data, lowerAlnumDash c = true) ∧
    (extShapeOK (imageFilenameParts ref hostname).2.data = true →
      matchesFilenamePattern (imageFilename ref hostname) = true) := by
  obtain ⟨hne, hcls⟩ := imageFilenameParts_body ref hostname
  refine ⟨hne, hcls, ?_⟩
  intro he
  unfold matchesFilenamePattern imageFilename
  rw [strData_append]
  exact matchesFilenamePattern_of _ _ hne hcls he

set_option maxRecDepth 40000 in
/-- Claim C1, counterexample: a URL whose path carries an uppercase
extension yields a filename (here ending in `.PNG`) that violates the
claimed pattern, because the extension is appended after, not before,
the sanitizing transliteration. -/
theorem C1_pattern_fails :
    matchesFilenamePattern (imageFilename "http://x.com/a.PNG" "https://site.ua") = false := by
  decide

set_option maxRecDepth 40000 in
/-- Witness for the corrected claim C1 at a concrete well-formed input. -/
theorem C1_filename_shape_witness :
    extShapeOK (imageFilenameParts "/a.jpg" "https://site.ua").2.data = true ∧
    matchesFilenamePattern (imageFilename "/a.jpg" "https://site.ua") = true :=
  ⟨by decide, (C1_filename_shape "/a.jpg" "https://site.ua").2.2 (by decide)⟩

/-- Count of successes is at most the number of links. -/
theorem countP_le_len (p : String → Bool) (l : List String) : l.countP p ≤ l.length := by
  induction l with
  | nil => simp
  | cons x l ih =>
    rw [List.countP_cons, List.length_cons]
    by_cases hx : p x = true
    · rw [if_pos hx]; omega
    · rw [if_neg hx]; omega

/-- Bounds for the values of one progress sub-trace. -/
theorem fracTrace_mem_bounds (start cnt total : Nat) (hpos : 0 < total) (v : ℚ)
    (hv : v ∈ fracTrace start cnt total) :
    0 ≤ v ∧ v ≤ ((start + cnt : Nat) : ℚ) / (total : ℚ) := by
  obtain ⟨k, hk, rfl⟩ := List.mem_map.mp hv
  have hk' := List.mem_range.mp hk
  have htpos : (0 : ℚ) < (total : ℚ) := by exact_mod_cast hpos
  constructor
  · positivity
  · rw [div_le_div_iff_of_pos_right htpos]
    exact_mod_cast by omega

/-- Claim C8, counterexample: the orchestrator divides the shared step
counter by the number of distinct images only, so the row-rewrite steps
push the emitted fraction past 1 (here the run emits the value 2). -/
theorem C8_progress_exceeds_one :
    (2 : ℚ) ∈ (processRecords rec8 "https://h.ua" "/u/" (fun _ => true)).progressValues ∧
    ¬ ((2 : ℚ) ≤ 1) := by
  constructor
  · have htr : (processRecords rec8 "https://h.ua" "/u/" (fun _ => true)).progressValues =
        0 :: (fracTrace 0 1 1 ++ fracTrace 1 1 1) := rfl
    rw [htr]
    norm_num [fracTrace, List.mem_cons, List.mem_append, List.mem_map]
  · norm_num

/-- Claim C8 (corrected): with at least one distinct reference, every
emitted fractional value lies in `[0, (D+R)/I]` where `D` counts
successful downloads, `R` the data rows and `I` the distinct references;
the values emitted up to the end of the download phase lie in `[0, 1]`,
but the rewrite phase keeps incrementing the same counter over the
unchanged denominator `I`, so its values may exceed 1. -/
theorem C8_progress_bounds (records : List (List String)) (hostname imagedir : String)
    (ok : String → Bool) (iUk iRu : Nat)
    (huk : headerIndex (records.headD []) "body_uk" = some iUk)
    (hru : headerIndex (records.headD []) "body_ru" = some iRu)
    (hlen : 2 ≤ records.length)
    (hpos : 0 < (collectRefs (records.drop 1) iUk iRu).length) :
    (processRecords records hostname imagedir ok).progressValues =
      0 :: (fracTrace 0 ((collectRefs (records.drop 1) iUk iRu).countP (fun l => ok l))
              (collectRefs (records.drop 1) iUk iRu).length ++
            fracTrace ((collectRefs (records.drop 1) iUk iRu).countP (fun l => ok l))
              (records.drop 1).length (collectRefs (records.drop 1) iUk iRu).length) ∧
    (collectRefs (records.drop 1) iUk iRu).countP (fun l => ok l) ≤
      (collectRefs (records.drop 1) iUk iRu).length ∧
    (∀ v ∈ (processRecords records hostname imagedir ok).progressValues,
      0 ≤ v ∧ v ≤ (((collectRefs (records.drop 1) iUk iRu).countP (fun l => ok l) +
          (records.drop 1).length : Nat) : ℚ) /
        ((collectRefs (records.drop 1) iUk iRu).length : ℚ)) ∧
    (∀ v ∈ (0 : ℚ) :: fracTrace 0 ((collectRefs (records.drop 1) iUk iRu).countP (fun l => ok l))
        (collectRefs (records.drop 1) iUk iRu).length, 0 ≤ v ∧ v ≤ 1) := by
  have htr : (processRecords records hostname imagedir ok).progressValues =
      0 :: (fracTrace 0 ((collectRefs (records.drop 1) iUk iRu).countP (fun l => ok l))
              (collectRefs (records.drop 1) iUk iRu).length ++
            fracTrace ((collectRefs (records.drop 1) iUk iRu).countP (fun l => ok l))
              (records.drop 1).length (collectRefs (records.drop 1) iUk iRu).length) := by
    simp only [processRecords]
    rw [if_neg (by omega), huk, hru]
  have hD := countP_le_len (fun l => ok l) (collectRefs (records.drop 1) iUk iRu)
  have htpos : (0 : ℚ) < ((collectRefs (records.drop 1) iUk iRu).length : ℚ) := by
    exact_mod_cast hpos
  refine ⟨htr, hD, ?_, ?_⟩
  · intro v hv
    rw [htr] at hv
    rcases List.mem_cons.mp hv with hv | hv
    · subst hv
      exact ⟨le_refl 0, by positivity⟩
    · rcases List.mem_append.mp hv with hv | hv
      · obtain ⟨h0, h1⟩ := fracTrace_mem_bounds _ _ _ hpos v hv
        refine ⟨h0, le_trans h1 ?_⟩
        rw [div_le_div_iff_of_pos_right htpos]
        exact_mod_cast by omega
      · obtain ⟨h0, h1⟩ := fracTrace_mem_bounds _ _ _ hpos v hv
        exact ⟨h0, h1⟩
  · intro v hv
    rcases List.mem_cons.mp hv with hv | hv
    · subst hv
      norm_num
    · obtain ⟨h0, h1⟩ := fracTrace_mem_bounds _ _ _ hpos v hv
      refine ⟨h0, le_trans h1 ?_⟩
      rw [div_le_one htpos]
      exact_mod_cast by omega

/-- Witness for the corrected claim C8: the trace decomposition at a
concrete run. -/
theorem C8_progress_bounds_witness :
    (processRecords rec8 "https://h.ua" "/u/" (fun _ => true)).progressValues =
      0 :: (fracTrace 0 ((collectRefs (rec8.drop 1) 0 1).countP (fun _ => true))
              (collectRefs (rec8.drop 1) 0 1).length ++
            fracTrace ((collectRefs (rec8.drop 1) 0 1).countP (fun _ => true))
              (rec8.drop 1).length (collectRefs (rec8.drop 1) 0 1).length) :=
  (C8_progress_bounds rec8 "https://h.ua" "/u/" (fun _ => true) 0 1 (by decide) (by decide)
    (by decide) (by decide)).1

set_option maxRecDepth 60000 in
/-- Claim C5, counterexample: the first row's rewritten src value is
`/u/cf3a--a.jpg` — the directory-derived token is empty for a top-level
path, so hash and base name are separated by two hyphens, not the
claimed single `hash-a.jpg` shape (which the shape checker, validated on
the hypothetical single-hyphen value, rejects for the real value). -/
theorem C5_claimed_shape_fails :
    getOutRow (processRecords rec5 "https://site.ua" "/u/" (fun _ => true)) 1 0 =
      "<img src=" ++ sqs ++ "/u/cf3a--a.jpg" ++ sqs ++ ">" ∧
    hashDashShape "/u/" "-a.jpg" "/u/cf3a-a.jpg" = true ∧
    hashDashShape "/u/" "-a.jpg" "/u/cf3a--a.jpg" = false := by decide

set_option maxRecDepth 60000 in
/-- Claim C5 (corrected): on the two example rows with hostname
`https://site.ua` and imagedir `/u/`, the reference `/a.jpg` resolves to
`https://site.ua/a.jpg`, each distinct reference is fetched exactly once,
and the rewritten rows carry `/u/cf3a--a.jpg` and `/u/1aad--b.png`: a
4-hex-character SHA-1 prefix, then two hyphens (the directory token
between them is empty), then the base name with its extension
preserved. -/
theorem C5_example_run :
    resolveImageURL "/a.jpg" "https://site.ua" = "https://site.ua/a.jpg" ∧
    (processRecords rec5 "https://site.ua" "/u/" (fun _ => true)).attempted =
      ["/a.jpg", "http://x.com/b.png"] ∧
    (processRecords rec5 "https://site.ua" "/u/" (fun _ => true)).attempted.count "/a.jpg" = 1 ∧
    (processRecords rec5 "https://site.ua" "/u/" (fun _ => true)).attempted.count
      "http://x.com/b.png" = 1 ∧
    (processRecords rec5 "https://site.ua" "/u/" (fun _ => true)).outcome =
      Except.ok [["body_uk", "body_ru"],
        ["<img src=" ++ sqs ++ "/u/cf3a--a.jpg" ++ sqs ++ ">", ""],
        ["<img src=" ++ sqs ++ "/u/1aad--b.png" ++ sqs ++ ">", ""]] ∧
    hashDashShape "/u/" "--a.jpg" "/u/cf3a--a.jpg" = true ∧
    hashDashShape "/u/" "--b.png" "/u/1aad--b.png" = true := by decide

/-- An association list none of whose keys is `bad` has no binding for
`bad`. -/
theorem lookup_none_of_no_key (bad : String) :
    ∀ m : List (String × String), (∀ p ∈ m, ¬ (p.1 = bad)) → List.lookup bad m = none := by
  intro m
  induction m with
  | nil => intro _; rfl
  | cons p m ih =>
    intro h
    cases p with
    | mk k v =>
      have hk : (bad == k) = false := by
        apply beq_eq_false_iff_ne.mpr
        intro hkk
        exact h (k, v) (List.mem_cons_self _ _) (by simp [hkk.symm])
      simp only [List.lookup, hk]
      exact ih (fun q hq => h q (List.mem_cons_of_mem _ hq))

set_option maxRecDepth 60000 in
/-- Claim C6, counterexample: with references `a` (succeeds) and `qa`
(fails), the batch still completes — but the literal occurrence of the
failed reference `qa` inside the `zz` attribute of the tag whose src is
`a` is destroyed by the first-occurrence replacement, so the failed
reference is not left byte-identical everywhere. -/
theorem C6_failed_ref_clobbered :
    strContains (getCol (rec6.getD 1 []) 0) "qa" = true ∧
    isOkOutcome (processRecords rec6 "https://h.ua" "/u/"
      (fun l => !(l == "qa"))).outcome = true ∧
    strContains (getOutRow (processRecords rec6 "https://h.ua" "/u/"
      (fun l => !(l == "qa"))) 1 0) "qa" = false := by decide

/-- Claim C6 (corrected): a failed reference never aborts the batch: it
gets no entry in the reference-to-path map, every successful reference
gets its computed entry, the output rows are still produced, and every
tag whose looked-up src value is the failed reference is left unchanged
by the rewrite.  (Occurrences of the failed literal elsewhere in a tag
being rewritten for another reference may still be altered, as the
counterexample shows.) -/
theorem C6_failure_isolated (records : List (List String)) (hostname imagedir : String)
    (ok : String → Bool) (bad : String) (iUk iRu : Nat)
    (huk : headerIndex (records.headD []) "body_uk" = some iUk)
    (hru : headerIndex (records.headD []) "body_ru" = some iRu)
    (hlen : 2 ≤ records.length)
    (hbad : ok bad = false) :
    (∀ p ∈ imagePathMap (collectRefs (records.drop 1) iUk iRu) hostname imagedir ok,
      ¬ (p.1 = bad)) ∧
    (∀ l ∈ collectRefs (records.drop 1) iUk iRu, ok l = true →
      (l, relativePathOf l hostname imagedir) ∈
        imagePathMap (collectRefs (records.drop 1) iUk iRu) hostname imagedir ok) ∧
    ((processRecords records hostname imagedir ok).outcome =
      Except.ok ((records.headD []) :: (records.drop 1).map (fun r =>
        rewriteRow r iUk iRu
          (imagePathMap (collectRefs (records.drop 1) iUk iRu) hostname imagedir ok)))) ∧
    (∀ whole : List Char, findSrcAttr whole = some bad.data →
      rewriteTag (imagePathMap (collectRefs (records.drop 1) iUk iRu) hostname imagedir ok)
        whole = whole) := by
  have hnokey : ∀ p ∈ imagePathMap (collectRefs (records.drop 1) iUk iRu) hostname imagedir ok,
      ¬ (p.1 = bad) := by
    intro p hp hpbad
    obtain ⟨a, ha, heq⟩ := List.mem_filterMap.mp hp
    by_cases hoka : ok a = true
    · rw [if_pos hoka, Option.some_inj] at heq
      have hpa : p.1 = a := by rw [← heq]
      rw [hpa] at hpbad
      rw [hpbad] at hoka
      rw [hoka] at hbad
      exact absurd hbad (by simp)
    · rw [if_neg hoka] at heq
      exact absurd heq (by simp)
  refine ⟨hnokey, ?_, ?_, ?_⟩
  · intro l hl hok
    apply List.mem_filterMap.mpr
    exact ⟨l, hl, by rw [if_pos hok]⟩
  · simp only [processRecords]
    rw [if_neg (by omega), huk, hru]
  · intro whole hw
    unfold rewriteTag
    rw [hw]
    have hmk : String.mk bad.data = bad := by cases bad; rfl
    simp only [hmk, lookup_none_of_no_key bad _ hnokey]

/-- Witness for the corrected claim C6: the batch outcome is produced
despite the failure of `qa`. -/
theorem C6_failure_isolated_witness :
    (processRecords rec6 "https://h.ua" "/u/" (fun l => !(l == "qa"))).outcome =
      Except.ok ((rec6.headD []) :: (rec6.drop 1).map (fun r =>
        rewriteRow r 0 1 (imagePathMap (collectRefs (rec6.drop 1) 0 1) "https://h.ua" "/u/"
          (fun l => !(l == "qa"))))) :=
  (C6_failure_isolated rec6 "https://h.ua" "/u/" (fun l => !(l == "qa")) "qa" 0 1 (by decide)
    (by decide) (by decide) (by decide)).2.2.1
